import Mathlib

/-!
Verification of core behaviours of `VimeoCrawler3.py` (openube/vimeo-crawler).

The crawler's data and string manipulation is modelled by a shallow embedding:
Python strings become `List Char`, Python sets become `Finset Nat`, and the
relevant methods (`URL.__init__`, `URL.createFile`, `cleanupFileName`,
`VimeoCrawler.getItemsFromURL`'s registry updates, the download-decision block
of `VimeoCrawler.processVideo`, `ProgressIndicator.update`,
`VimeoCrawler.removeDuplicates`) become executable Lean functions mirroring
the source line by line.  Definitions come first, all theorems follow.
-/

/-- Python strings are modelled as lists of characters. -/
abbrev Str := List Char

/-! ## Generic string helpers (Python `str` primitives used by the crawler) -/

/-- Python `s.startswith(pat)` on the character-list model; also the primitive
used to define substring search. -/
def strStarts : Str → Str → Bool
  | [], _ => true
  | _ :: _, [] => false
  | a :: as, b :: bs => a = b && strStarts as bs

/-- Position of the first occurrence of `pat` in `s` (Python `s.find(pat)` /
`s.index(pat)`; `none` when absent). -/
def findSub (pat : Str) : Str → Option Nat
  | [] => if strStarts pat [] then some 0 else none
  | s@(_ :: rest) =>
    if strStarts pat s then some 0 else (findSub pat rest).map (· + 1)

/-- Python `pat in s` substring test. -/
def hasSub (pat s : Str) : Bool := (findSub pat s).isSome

/-- Python `s.endswith(suf)`. -/
def strEnds (suf s : Str) : Bool := strStarts suf.reverse s.reverse

/-- Python `s.split(sep)` for a one-character separator: the result is always
a non-empty list of (possibly empty) components. -/
def splitChar (sep : Char) : Str → List Str
  | [] => [[]]
  | c :: rest =>
    if c = sep then [] :: splitChar sep rest
    else
      match splitChar sep rest with
      | [] => [[c]]
      | h :: t => (c :: h) :: t

/-- Python `s.replace('//', '/')`: left-to-right, non-overlapping replacement,
so `"///"` becomes `"//"`. -/
def dedupeSlash : Str → Str
  | '/' :: '/' :: rest => '/' :: dedupeSlash rest
  | c :: rest => c :: dedupeSlash rest
  | [] => []

/-- Characters stripped by Python's default `str.strip()`. -/
def isSpaceChar (c : Char) : Bool :=
  c = ' ' || c = '\t' || c = '\n' || c = '\r' || c = '\x0b' || c = '\x0c'

/-- Python `s.strip(chars)`: drop matching characters from both ends. -/
def stripBy (p : Char → Bool) (s : Str) : Str :=
  ((s.dropWhile p).reverse.dropWhile p).reverse

/-- Python `s.lower()` (the crawler only lower-cases ASCII URLs). -/
def lowerStr (s : Str) : Str := s.map Char.toLower

/-- Python `s.isdigit()` for ASCII strings: non-empty and all digits. -/
def isDigitStr (s : Str) : Prop := s ≠ [] ∧ ∀ c ∈ s, c.isDigit

instance (s : Str) : Decidable (isDigitStr s) :=
  inferInstanceAs (Decidable (s ≠ [] ∧ ∀ c ∈ s, c.isDigit))

/-- Python `s.rfind(c)`: index of the last occurrence of `c` in `s`. -/
def rfindChar (c : Char) (s : Str) : Option Nat :=
  (findSub [c] s.reverse).map (fun i => s.length - 1 - i)

/-- Python `s.split(pat)[0]`: the part of `s` before the first occurrence of
`pat` (all of `s` when `pat` is absent). -/
def takeBeforeSub (pat s : Str) : Str :=
  match findSub pat s with
  | some i => s.take i
  | none => s

/-- Python `str(n)` for a non-negative integer. -/
def natStr (n : Nat) : Str := (Nat.repr n).toList

/-- Python `' '.join(parts)`. -/
def joinSpace (parts : List Str) : Str := List.intercalate [' '] parts

/-! ## The `URL` link classifier (`URL.__init__`, lines 145-174)

The constructor is split into named stages so that theorems can speak about
intermediate values; composing the stages in order gives exactly the Python
control flow.
-/

/-- Module constant `VIMEO = 'vimeo.com'`. -/
def VIMEO : Str := "vimeo.com".toList

/-- Module constant `VIMEO_URL % path = 'https://vimeo.com/<path>'`. -/
def vimeoURL (path : Str) : Str := "https://vimeo.com/".toList ++ path

/-- Module constant `SYSTEM_LINKS`. -/
def SYSTEM_LINKS : List Str :=
  ["about", "blog", "categories", "channels", "cookie_policy", "couchmode",
   "creativecommons", "creatorservices", "dmca", "enhancer", "everywhere",
   "explore", "groups", "help", "jobs", "join", "log_in", "love",
   "musicstore", "ondemand", "plus", "privacy", "pro", "robots.txt",
   "search", "site_map", "staffpicks", "terms", "upload",
   "videoschool"].map String.toList

/-- Module constant `CATEGORIES_LINKS = ('albums', 'groups', 'channels')`. -/
def CATEGORIES_LINKS : List Str := ["albums", "groups", "channels"].map String.toList

/-- Module constant `VIDEOS_LINKS = ('videos')`: note the missing comma in the
source makes this a plain *string*, so the membership test
`tokens[1] in VIDEOS_LINKS` is a substring test, not a tuple lookup. -/
def VIDEOS_LINKS : Str := "videos".toList

/-- Module constant `FOLDERS_LINKS = ('album', 'groups', 'channels')`. -/
def FOLDERS_LINKS : List Str := ["album", "groups", "channels"].map String.toList

/-- The singular folder kind `'album'` used by the `/videos` suffix test. -/
def ALBUM : Str := "album".toList

/-- The kind flags and kind-specific fields set by `URL.__init__`
(everything except the normalized URL itself). -/
structure URLFields where
  isSystem : Bool
  isVideo : Bool
  isAccount : Bool
  isCategory : Bool
  isVideos : Bool
  isFolder : Bool
  vID : Option Nat
  account : Option Str
  category : Option Str
  folder : Option Str
  name : Option Str
deriving DecidableEq, Repr

/-- Python `int(s)` on an all-digit ASCII string. -/
def digitsToNat (s : Str) : Nat := s.foldl (fun a c => a * 10 + (c.toNat - 48)) 0

/-- Lines 162-172 of `URL.__init__`: the flags and fields computed from the
final (lower-cased) token list. -/
def classifyTokens (t : List Str) : URLFields :=
  let head := t.headD []
  let second := t.getD 1 []
  let isSystem := t.isEmpty ||
    (decide (head ∈ SYSTEM_LINKS) &&
      (decide (t.length = 1) || !decide (head ∈ FOLDERS_LINKS)))
  let isVideo := decide (t.length = 1) && decide (isDigitStr head)
  let isAccount := decide (t.length = 1) && !isSystem && !isVideo
  let isCategory := decide (t.length = 2) && decide (second ∈ CATEGORIES_LINKS)
  let isVideos := decide (t.length = 2) && hasSub second VIDEOS_LINKS
  let isFolder := decide (t.length = 2) && decide (head ∈ FOLDERS_LINKS)
  { isSystem := isSystem
    isVideo := isVideo
    isAccount := isAccount
    isCategory := isCategory
    isVideos := isVideos
    isFolder := isFolder
    vID := cond isVideo (some (digitsToNat head)) none
    account := cond (isAccount || isCategory || isVideos) (some head) none
    category := cond (isCategory || isVideos) (some second) none
    folder := cond isFolder (some head) none
    name :=
      cond isFolder (some second)
        (cond isAccount (some head)
          (cond (isCategory || isVideos) (some second) none)) }

/-- Lines 146-152 of `URL.__init__`: prepend the site URL to a bare id (no
slash), `strip()` whitespace, `strip('/')`, and collapse `'//'` after the
first slash (Python `find` returns `-1` when there is no slash, so the
replacement then applies to the whole string). -/
def normalizeURL (s : Str) : Str :=
  let s0 := if '/' ∈ s then s else vimeoURL s
  let u := stripBy (· = '/') (stripBy isSpaceChar s0)
  match findSub ['/'] u with
  | some i => u.take (i + 1) ++ dedupeSlash (u.drop (i + 1))
  | none => dedupeSlash u

/-- Line 154: position of `'vimeo.com'` in the lower-cased URL (`none` means
`ValueError: Invalid Vimeo URL`). -/
def idxOf (u : Str) : Option Nat := findSub VIMEO (lowerStr u)

/-- Line 156: path tokens after the domain, from the lower-cased URL. -/
def tokens0Of (u : Str) (idx : Nat) : List Str :=
  splitChar '/' ((lowerStr u).drop (idx + VIMEO.length + 1))

/-- Line 157: collapse condition — 3 or 4 tokens with an all-digit last. -/
def collapseP (t0 : List Str) : Prop :=
  (t0.length = 3 ∨ t0.length = 4) ∧ isDigitStr (t0.getLastD [])

instance (t0 : List Str) : Decidable (collapseP t0) :=
  inferInstanceAs
    (Decidable ((t0.length = 3 ∨ t0.length = 4) ∧ isDigitStr (t0.getLastD [])))

/-- Lines 157-159: the URL after the share-link collapse. -/
def u1Of (u : Str) (t0 : List Str) : Str :=
  if collapseP t0 then vimeoURL (t0.getLastD []) else u

/-- Lines 157-159: the tokens after the share-link collapse. -/
def tokens1Of (t0 : List Str) : List Str :=
  if collapseP t0 then [t0.getLastD []] else t0

/-- Line 160: drop condition — exactly 3 tokens ending in `'videos'`. -/
def dropP (t1 : List Str) : Prop :=
  t1.length = 3 ∧ t1.getLastD [] = VIDEOS_LINKS

instance (t1 : List Str) : Decidable (dropP t1) :=
  inferInstanceAs (Decidable (t1.length = 3 ∧ t1.getLastD [] = VIDEOS_LINKS))

/-- Lines 160-161: the final token list used for classification. -/
def tokensOf (t1 : List Str) : List Str := if dropP t1 then t1.dropLast else t1

/-- Lines 173-174: condition for appending `'/videos'` — a Folder whose kind
is not `'album'` and whose (case-preserved) URL does not already end in
`'videos'`. -/
def appendP (u1 : Str) (f : URLFields) : Prop :=
  f.isFolder = true ∧ f.folder ≠ some ALBUM ∧ strEnds VIDEOS_LINKS u1 = false

instance (u1 : Str) (f : URLFields) : Decidable (appendP u1 f) :=
  inferInstanceAs
    (Decidable (f.isFolder = true ∧ f.folder ≠ some ALBUM ∧
      strEnds VIDEOS_LINKS u1 = false))

/-- Lines 173-174: the final normalized URL. -/
def u2Of (u1 : Str) (f : URLFields) : Str :=
  if appendP u1 f then u1 ++ '/' :: VIDEOS_LINKS else u1

/-- A constructed `URL` object: normalized URL plus classification fields. -/
structure PyURL where
  url : Str
  fields : URLFields
deriving DecidableEq, Repr

/-- `URL.__init__` on an already-normalized URL (everything after line 152);
`none` models the `ValueError` for non-Vimeo links. -/
def parseCore (u : Str) : Option PyURL :=
  match idxOf u with
  | none => none
  | some idx =>
    let t0 := tokens0Of u idx
    let f := classifyTokens (tokensOf (tokens1Of t0))
    some ⟨u2Of (u1Of u t0) f, f⟩

/-- The whole of `URL.__init__`: classification of a raw link string. -/
def parseURL (s : Str) : Option PyURL := parseCore (normalizeURL s)

/-- The `u1` stage (line 159's `self.url`) reached when classifying `s`,
exposed for theorems about the `/videos` suffix rule. -/
def stageU1 (s : Str) : Option Str :=
  (idxOf (normalizeURL s)).map
    (fun idx => u1Of (normalizeURL s) (tokens0Of (normalizeURL s) idx))

/-- Classification runs in which the classifier both drops a trailing
(case-variant) `'videos'` token for classification and appends `'/videos'`
to the case-preserved URL; these runs break idempotence. -/
def riskyRunB (s : Str) : Bool :=
  match idxOf (normalizeURL s) with
  | none => false
  | some idx =>
    let t0 := tokens0Of (normalizeURL s) idx
    decide (dropP (tokens1Of t0)) &&
      decide (appendP (u1Of (normalizeURL s) t0)
        (classifyTokens (tokensOf (tokens1Of t0))))

/-! ## Python 3 object equality for `URL` (C4)

`URL` defines `__hash__` (over `self.url`) and `__cmp__` (lines 186-190).
Python 3 never calls `__cmp__`, and the class defines no `__eq__`, so `==`
falls back to `object.__eq__`, which compares identity.  An object is
modelled by its identity (`oid`) plus its `URL` value. -/

/-- A `URL` object at runtime: identity plus constructed value. -/
structure PyObjURL where
  oid : Nat
  val : PyURL

/-- Python 3 `==` on two `URL` objects: no `__eq__` is defined and `__cmp__`
is ignored, so equality is object identity. -/
def py3URLEq (a b : PyObjURL) : Bool := a.oid == b.oid

/-- Line 186-187: `__hash__` is determined by the normalized URL string. -/
def py3URLHashKey (a : PyObjURL) : Str := a.val.url

/-! ## File naming in `processVideo` (C3)

Line 471: `fileName = cleanupFileName('%s.%s' % (' '.join(((title,) if title
else ()) + (str(vID),)), extension.lower()))`, with the title already
stripped of surrounding whitespace and trailing dots at line 430. -/

/-- Module constant `INVALID_FILENAME_CHARS` (line 129). -/
def INVALID_FILENAME_CHARS : Str :=
  "<>:\"/\\|?*".toList ++ ['\'']

/-- Line 130-131: replace every filesystem-invalid character by `'_'`. -/
def cleanupFileName (s : Str) : Str :=
  s.map fun c => if c ∈ INVALID_FILENAME_CHARS then '_' else c

/-- Line 430: the title as read from the page — `.strip().rstrip('.')`. -/
def readTitle (raw : Str) : Str :=
  ((stripBy isSpaceChar raw).reverse.dropWhile (· = '.')).reverse

/-- Line 471: the local file name built for a video. -/
def videoFileName (title : Str) (vID : Nat) (extension : Str) : Str :=
  cleanupFileName
    (joinSpace ((if title = [] then [] else [title]) ++ [natStr vID]) ++
      '.' :: lowerStr extension)

/-- File name as the spec describes it: sanitized title — or the video ID
when the title is empty — followed by `'.'` and the lower-cased extension. -/
def videoFileNameSpec (title : Str) (vID : Nat) (extension : Str) : Str :=
  (if title = [] then natStr vID else cleanupFileName title) ++
    '.' :: lowerStr extension

/-! ## The provenance shortcut file (`URL.createFile`, lines 176-178, C9) -/

/-- Content written by `URL.createFile`:
`'[InternetShortcut]\nURL=%s\n' % self.url.split('/videos')[0]`. -/
def shortcutContent (url : Str) : Str :=
  "[InternetShortcut]\nURL=".toList ++
    takeBeforeSub "/videos".toList url ++ ['\n']

/-- Shortcut content as the spec describes it: the URL with any *trailing*
`"/videos"` stripped, the rest unchanged. -/
def shortcutContentSpec (url : Str) : Str :=
  "[InternetShortcut]\nURL=".toList ++
    (if strEnds "/videos".toList url then url.take (url.length - 7) else url) ++
    ['\n']

/-! ## The duplicate reconciler (`removeDuplicates`, lines 597-615, C2) -/

/-- A directory entry seen by `removeDuplicates`: name, whether `isfile`
holds for it, and its byte size. -/
structure DirEntry where
  name : Str
  isRegularFile : Bool
  size : Nat
deriving DecidableEq, Repr

/-- Line 606: the grouping key `fileName[:fileName.rfind('.')]` — the part
of the name before its *last* dot. -/
def stemOf (n : Str) : Str :=
  match rfindChar '.' n with
  | some i => n.take i
  | none => n

/-- Append an entry to its key's group, preserving dict insertion order
(line 607: `files[keyName] = files.get(keyName, []) + [...]`). -/
def addEntry (gs : List (Str × List DirEntry)) (k : Str) (e : DirEntry) :
    List (Str × List DirEntry) :=
  match gs with
  | [] => [(k, [e])]
  | (k', es) :: rest =>
    if k' = k then (k', es ++ [e]) :: rest else (k', es) :: addEntry rest k e

/-- Lines 600-607: group the regular files containing a dot by their stem. -/
def buildGroups (entries : List DirEntry) : List (Str × List DirEntry) :=
  entries.foldl
    (fun gs e =>
      if '.' ∈ e.name ∧ e.isRegularFile = true then
        addEntry gs (stemOf e.name) e
      else gs)
    []

/-- Line 612: `sorted(fullNames, key=getsize)` — stable ascending sort by
byte size. -/
def sortBySize (es : List DirEntry) : List DirEntry :=
  es.mergeSort (fun a b => a.size ≤ b.size)

/-- Lines 608-614: the file names removed — for every group with more than
one member, all but the last of the size-sorted group. -/
def removedNames (entries : List DirEntry) : List Str :=
  ((buildGroups entries).map
    (fun g => if g.2.length ≤ 1 then [] else (sortBySize g.2).dropLast.map (·.name))).flatten

/-- Grouping key as the spec describes it: the part before the *first* dot. -/
def stemSpecOf (n : Str) : Str :=
  match findSub ['.'] n with
  | some i => n.take i
  | none => n

/-- The reconciler as the spec describes it, differing from the source only
in the grouping key (first dot instead of last). -/
def buildGroupsSpec (entries : List DirEntry) : List (Str × List DirEntry) :=
  entries.foldl
    (fun gs e =>
      if '.' ∈ e.name ∧ e.isRegularFile = true then
        addEntry gs (stemSpecOf e.name) e
      else gs)
    []

/-- Removed names under the spec's first-dot grouping. -/
def removedNamesSpec (entries : List DirEntry) : List Str :=
  ((buildGroupsSpec entries).map
    (fun g => if g.2.length ≤ 1 then [] else (sortBySize g.2).dropLast.map (·.name))).flatten

/-! ## Zero-retry `processVideo` and folder linking (C10)

`processVideo` (line 424) runs `for _attempt in range(self.retryCount)`.
Each executed iteration assigns the local `fileName` (line 471); with
`retryCount == 0` the body never runs and `fileName` stays unbound.  The
folder-linking loop (lines 583-592) then evaluates
`join(dirName, fileName)` for every registered folder containing the video
ID, raising `UnboundLocalError`.  One outer attempt is abstracted by its
observable effect on `fileName` and whether it breaks the loop. -/

/-- Observable outcome of one outer download attempt. -/
structure AttemptOutcome where
  fileName : Str
  breakLoop : Bool

/-- The outer `for _attempt in range(retryCount)` loop: returns the number
of iterations executed and the final binding of the local `fileName`
(`none` = never assigned). -/
def runAttempts : Nat → (Nat → AttemptOutcome) → Nat → Option Str →
    Nat × Option Str
  | 0, _, done, fn => (done, fn)
  | n + 1, outcome, done, fn =>
    let o := outcome done
    if o.breakLoop then (done + 1, some o.fileName)
    else runAttempts n outcome (done + 1) (some o.fileName)

/-- Lines 424-595 of `processVideo` at the granularity relevant to folder
linking: run the attempts, then for every folder whose member set contains
the video create a link named `fileName` — reading `fileName` unassigned
raises `UnboundLocalError`. -/
def processVideoModel (retryCount : Nat) (outcome : Nat → AttemptOutcome)
    (folders : List (Str × Finset Nat)) (vID : Nat) :
    Nat × Except String (List Str) :=
  let r := runAttempts retryCount outcome 0 none
  let linkDirs := (folders.filter (fun f => vID ∈ f.2)).map (·.1)
  match linkDirs, r.2 with
  | [], _ => (r.1, Except.ok [])
  | _ :: _, none =>
    (r.1, Except.error "UnboundLocalError: local variable fileName referenced before assignment")
  | ds, some fn => (r.1, Except.ok (ds.map (fun d => d ++ '/' :: fn)))

/-- Lines 264-269: option validation accepts any non-negative `-r` value. -/
def retriesAccepted (r : Int) : Bool := 0 ≤ r

/-! ## Crawl session registries (C1)

`VimeoCrawler.run` initialises `self.vIDs = []` and `self.folders = []`.
`getItemsFromURL` performs two kinds of registry updates:

* lines 370-374 (a Video node): append `url.vID` to `self.vIDs` unless
  already present, and `target.add(url.vID)` when a membership target is
  active;
* lines 412-414 (a Folder node): `target = set()` followed by
  `self.folders.append((dirName, target))`.

The membership target is an alias into `self.folders`, modelled as an index.
-/

/-- State of the registries owned by `VimeoCrawler.run`. -/
structure CrawlSession where
  vIDs : List Nat
  folders : List (Str × Finset Nat)

/-- One registry-mutating step of the walker. -/
inductive CrawlStep where
  /-- A Video node: lines 370-374 of `getItemsFromURL`; `target` is the index
  of the active membership set inside `folders`, or `none`. -/
  | video (v : Nat) (target : Option Nat)
  /-- Folder registration: lines 412-414 of `getItemsFromURL`. -/
  | newFolder (dirName : Str)

/-- Effect of one walker step on the session registries, as in the source. -/
def crawlStep (s : CrawlSession) : CrawlStep → CrawlSession
  | .video v target =>
    { vIDs := if v ∈ s.vIDs then s.vIDs else s.vIDs ++ [v]
      folders :=
        match target with
        | none => s.folders
        | some i =>
          match s.folders[i]? with
          | some (n, m) => s.folders.set i (n, insert v m)
          | none => s.folders }
  | .newFolder dirName => { s with folders := s.folders ++ [(dirName, ∅)] }

/-- A crawl from the empty registries of `VimeoCrawler.run`. -/
def runCrawl (steps : List CrawlStep) : CrawlSession :=
  steps.foldl crawlStep ⟨[], []⟩

/-- The spec's invariant: no duplicate visited IDs, and every folder's member
set is contained in the visited registry. -/
def SessionInv (s : CrawlSession) : Prop :=
  s.vIDs.Nodup ∧ ∀ p ∈ s.folders, ∀ v ∈ p.2, v ∈ s.vIDs

/-! ## Download decision block of `processVideo` (C5)

Lines 493-504 of `VimeoCrawler3.py`:

```
if link:
    if linkSize:
        localSize = getFileSize(targetFileName)
        if localSize == linkSize:
            downloadOK = True
        elif localSize and localSize > linkSize:
            self.errors += 1
            ...
            downloadSkip = True
    if self.doDownload and not downloadOK:
        ... open(targetFileName, 'wb') ... curl.perform() ...
```

`linkSize`/`localSize` are `None` or a byte count; note that Python treats
both `None` and `0` as falsy in the `if linkSize:` / `elif localSize` tests.
-/

/-- Python truthiness of an optional byte count. -/
def pyTruthy : Option Nat → Bool
  | none => false
  | some n => n ≠ 0

/-- Outcome of the pre-transfer decision block of `processVideo`.
`transferPerformed` is the condition of line 504 (`self.doDownload and not
downloadOK`), which guards opening `targetFileName` in mode `'wb'`
(truncating any existing file) and running curl. -/
structure DownloadPhase where
  transferPerformed : Bool
  alreadyDownloaded : Bool
  downloadSkip : Bool
  errorsAdded : Nat
deriving DecidableEq, Repr

/-- Lines 493-504 of `processVideo`, as a function of the resolved link, the
probed remote size and the local file size. -/
def downloadPhase (doDownload : Bool) (linkFound : Bool)
    (linkSize localSize : Option Nat) : DownloadPhase :=
  if linkFound then
    let r :=
      if pyTruthy linkSize then
        if localSize = linkSize then (true, false, 0)
        else if pyTruthy localSize ∧ linkSize.getD 0 < localSize.getD 0 then
          (false, true, 1)
        else (false, false, 0)
      else (false, false, 0)
    ⟨doDownload && !r.1, r.1, r.2.1, r.2.2⟩
  else ⟨false, false, false, 0⟩

/-! ## Stall detection in `ProgressIndicator.update` (C6)

Lines 523-533 of `VimeoCrawler3.py`. `time()` is modelled by an explicit
`now` argument (the method reads the clock once in the branch shown). -/

/-- Bytes per progress tick (`QUANTUM = 10 * 1024 * 1024`). -/
def QUANTUM : Nat := 10 * 1024 * 1024

/-- Mutable state of `ProgressIndicator`. -/
structure ProgressState where
  timeout : Nat
  started : Bool
  totalRead : Nat
  lastData : Nat
  count : Nat
deriving DecidableEq, Repr

/-- `ProgressIndicator.update`: raises `curlError("Download seems stalled")`
when no byte progress was made and the clock has passed
`lastData + timeout`; otherwise records progress and advances the textual
indicator. -/
def ProgressState.update (s : ProgressState) (now totalRead : Nat) :
    Except String ProgressState :=
  if totalRead ≤ s.totalRead then
    if s.lastData + s.timeout < now then
      Except.error "Download seems stalled"
    else
      Except.ok { s with count := totalRead / QUANTUM + 1, started := true }
  else
    Except.ok { s with totalRead := totalRead, lastData := now,
                       count := totalRead / QUANTUM + 1, started := true }

/-! # Theorems -/

open scoped List

theorem crawlStep_vIDs_extends (s : CrawlSession) (st : CrawlStep) :
    ∃ t, (crawlStep s st).vIDs = s.vIDs ++ t := by
  cases st with
  | video v target =>
    by_cases h : v ∈ s.vIDs
    · exact ⟨[], by simp [crawlStep, h]⟩
    · exact ⟨[v], by simp [crawlStep, h]⟩
  | newFolder d => exact ⟨[], by simp [crawlStep]⟩

theorem crawlStep_inv {s : CrawlSession} (h : SessionInv s) (st : CrawlStep) :
    SessionInv (crawlStep s st) := by
  obtain ⟨hnd, hsub⟩ := h
  cases st with
  | video v target =>
    constructor
    · by_cases hv : v ∈ s.vIDs
      · simpa [crawlStep, hv] using hnd
      · simp only [crawlStep, if_neg hv]
        exact List.Nodup.append hnd (List.nodup_singleton v)
          (by simpa using fun h' => hv h')
    · intro p hp w hw
      have hmem : w ∈ s.vIDs ∨ w = v := by
        simp only [crawlStep] at hp
        cases target with
        | none => exact Or.inl (hsub p hp w hw)
        | some i =>
          cases hfi : s.folders[i]? with
          | none => simp [hfi] at hp; exact Or.inl (hsub p hp w hw)
          | some q =>
            simp only [hfi] at hp
            rcases List.mem_or_eq_of_mem_set hp with hp' | hp'
            · exact Or.inl (hsub p hp' w hw)
            · subst hp'
              rcases Finset.mem_insert.mp hw with rfl | hw'
              · exact Or.inr rfl
              · exact Or.inl (hsub q (List.getElem?_mem hfi) w hw')
      have hout : ∃ t, (crawlStep s (.video v target)).vIDs = s.vIDs ++ t ∧
          v ∈ (crawlStep s (.video v target)).vIDs := by
        by_cases hv : v ∈ s.vIDs
        · exact ⟨[], by simp [crawlStep, hv]⟩
        · exact ⟨[v], by simp [crawlStep, hv]⟩
      obtain ⟨t, ht, hvmem⟩ := hout
      rcases hmem with hw' | rfl
      · rw [ht]; exact List.mem_append_left _ hw'
      · exact hvmem
  | newFolder d =>
    refine ⟨by simpa [crawlStep] using hnd, ?_⟩
    intro p hp w hw
    simp only [crawlStep, List.mem_append] at hp
    rcases hp with hp | hp
    · exact hsub p hp w hw
    · simp at hp; subst hp; simp at hw

/-- C1: after any sequence of walker registry steps starting from the empty
session, the visited-video-ID registry has no duplicates and every registered
folder's member set is a subset of it; moreover further steps only extend the
registry on the right, preserving insertion order. -/
theorem crawl_registry_invariant :
    ∀ steps : List CrawlStep, SessionInv (runCrawl steps) ∧
      ∀ extra : List CrawlStep, ∃ t,
        (runCrawl (steps ++ extra)).vIDs = (runCrawl steps).vIDs ++ t := by
  have hrun : ∀ (l : List CrawlStep) (s : CrawlSession),
      SessionInv s → SessionInv (l.foldl crawlStep s) := by
    intro l
    induction l with
    | nil => exact fun s h => h
    | cons st rest ih => exact fun s h => ih _ (crawlStep_inv h st)
  have hext : ∀ (l : List CrawlStep) (s : CrawlSession),
      ∃ t, (l.foldl crawlStep s).vIDs = s.vIDs ++ t := by
    intro l
    induction l with
    | nil => exact fun s => ⟨[], by simp⟩
    | cons st rest ih =>
      intro s
      obtain ⟨t₁, ht₁⟩ := ih (crawlStep s st)
      obtain ⟨t₀, ht₀⟩ := crawlStep_vIDs_extends s st
      exact ⟨t₀ ++ t₁, by simp [List.foldl_cons, ht₁, ht₀]⟩
  intro steps
  refine ⟨hrun steps _ ⟨List.nodup_nil, by simp⟩, ?_⟩
  intro extra
  have := hext extra (runCrawl steps)
  simpa [runCrawl, List.foldl_append] using this

/-- C5: at expected size 100 with a 150-byte local file and downloads enabled,
`processVideo` increments the error counter and sets `downloadSkip`, yet the
guard of line 504 still performs the transfer, truncating the local file —
whereas with a local file of exactly the expected size no transfer happens. -/
theorem oversized_local_still_transfers :
    downloadPhase true true (some 100) (some 150) =
      ⟨true, false, true, 1⟩ ∧
    downloadPhase true true (some 100) (some 100) =
      ⟨false, true, false, 0⟩ := by
  constructor <;> rfl

/-- C6: a progress callback with no byte increase arriving after the timeout
window raises the stall error, and a callback reporting an increase never
raises and resets the last-progress timestamp to the current time. -/
theorem progress_stall_behavior :
    (∀ (s : ProgressState) (now tr : Nat), tr ≤ s.totalRead →
        s.lastData + s.timeout < now →
        s.update now tr = Except.error "Download seems stalled") ∧
    (∀ (s : ProgressState) (now tr : Nat), s.totalRead < tr →
        ∃ s', s.update now tr = Except.ok s' ∧ s'.lastData = now ∧
          s'.totalRead = tr) := by
  constructor
  · intro s now tr h1 h2
    simp [ProgressState.update, h1, h2]
  · intro s now tr h1
    refine ⟨⟨s.timeout, true, tr, now, tr / QUANTUM + 1⟩, ?_, rfl, rfl⟩
    simp [ProgressState.update, Nat.not_le.mpr h1]

/-- Witness instantiating `progress_stall_behavior` at concrete inputs:
timeout 60, last progress at 100, a no-progress callback at time 161 stalls,
and a progressing callback at the same time updates the timestamp. -/
theorem progress_stall_behavior_witness :
    ((⟨60, false, 5, 100, 0⟩ : ProgressState).update 161 5 =
        Except.error "Download seems stalled") ∧
    ∃ s', (⟨60, false, 5, 100, 0⟩ : ProgressState).update 161 6 =
        Except.ok s' ∧ s'.lastData = 161 ∧ s'.totalRead = 6 :=
  ⟨progress_stall_behavior.1 ⟨60, false, 5, 100, 0⟩ 161 5 (by decide) (by decide),
   progress_stall_behavior.2 ⟨60, false, 5, 100, 0⟩ 161 6 (by decide)⟩

theorem joinSpace_single (a : Str) : joinSpace [a] = a := by
  simp [joinSpace, List.intercalate, List.intersperse]

theorem joinSpace_pair (a b : Str) : joinSpace [a, b] = a ++ ' ' :: b := by
  simp [joinSpace, List.intercalate, List.intersperse]

/-- C3 counterexample: for title `"Foo"`, video ID 123 and extension
`"MP4"`, the code produces `"Foo 123.mp4"` — the video ID is always part of
the name — while the claimed format gives `"Foo.mp4"`. -/
theorem video_fileName_counterexample :
    videoFileName "Foo".toList 123 "MP4".toList = "Foo 123.mp4".toList ∧
    videoFileNameSpec "Foo".toList 123 "MP4".toList = "Foo.mp4".toList ∧
    videoFileName "Foo".toList 123 "MP4".toList ≠
      videoFileNameSpec "Foo".toList 123 "MP4".toList := by
  refine ⟨by decide, by decide, by decide⟩

/-- C3 amended: the local file name is the sanitization of the whole string
`"<title> <vID>.<ext lower-cased>"`, where the space and the decimal video ID
are always present after a non-empty title, and the title alone is dropped
(not replaced) when empty. -/
theorem video_fileName_format (title : Str) (vID : Nat) (ext : Str) :
    (title = [] →
      videoFileName title vID ext =
        cleanupFileName (natStr vID ++ '.' :: lowerStr ext)) ∧
    (title ≠ [] →
      videoFileName title vID ext =
        cleanupFileName (title ++ ' ' :: (natStr vID ++ '.' :: lowerStr ext))) := by
  constructor
  · intro h
    subst h
    simp [videoFileName, joinSpace_single]
  · intro h
    simp [videoFileName, if_neg h, joinSpace_pair]

/-- Witness for `video_fileName_format` at an empty and a non-empty title. -/
theorem video_fileName_format_witness :
    videoFileName [] 7 "AVI".toList =
      cleanupFileName (natStr 7 ++ '.' :: lowerStr "AVI".toList) ∧
    videoFileName "Foo".toList 123 "MP4".toList =
      cleanupFileName ("Foo".toList ++ ' ' ::
        (natStr 123 ++ '.' :: lowerStr "MP4".toList)) :=
  ⟨(video_fileName_format [] 7 "AVI".toList).1 rfl,
   (video_fileName_format "Foo".toList 123 "MP4".toList).2 (by decide)⟩

/-- C4: two `URL` objects built from alias forms of the same link end up with
the same normalized URL string (and hence the same hash key), yet Python 3
equality — which falls back to object identity because `__cmp__` is never
called and no `__eq__` is defined — reports them unequal, so set-based
duplicate detection never merges them. -/
theorem url_eq_identity_bug :
    ∃ p q, parseURL "https://vimeo.com/123".toList = some p ∧
      parseURL "https://vimeo.com//123".toList = some q ∧
      p.url = q.url ∧
      py3URLHashKey ⟨0, p⟩ = py3URLHashKey ⟨1, q⟩ ∧
      py3URLEq ⟨0, p⟩ ⟨1, q⟩ = false := by
  refine ⟨⟨"https://vimeo.com/123".toList,
    ⟨false, true, false, false, false, false, some 123, none, none, none, none⟩⟩,
    ⟨"https://vimeo.com/123".toList,
    ⟨false, true, false, false, false, false, some 123, none, none, none, none⟩⟩,
    by decide, by decide, rfl, rfl, by decide⟩

/-- C9 counterexample: for the folder link `channels/videosx` the classifier
appends `/videos`, and `createFile` then truncates at the *first* occurrence
of `'/videos'`, writing `URL=https://vimeo.com/channels` — losing the folder
name — while the spec's trailing-strip keeps `.../channels/videosx`. -/
theorem shortcut_url_counterexample :
    ∃ p, parseURL "https://vimeo.com/channels/videosx".toList = some p ∧
      shortcutContent p.url =
        "[InternetShortcut]\nURL=https://vimeo.com/channels\n".toList ∧
      shortcutContentSpec p.url =
        "[InternetShortcut]\nURL=https://vimeo.com/channels/videosx\n".toList ∧
      shortcutContent p.url ≠ shortcutContentSpec p.url := by
  refine ⟨⟨"https://vimeo.com/channels/videosx/videos".toList,
    ⟨false, false, false, false, false, true, none, none, none,
      some "channels".toList, some "videosx".toList⟩⟩,
    by decide, by decide, by decide, by decide⟩

/-- C8 counterexample: `channels/myvideos` is a non-album Folder node whose
normalized URL passes the case-sensitive `endswith('videos')` test, so no
suffix is appended and the final URL does not end with `"/videos"`. -/
theorem folder_videos_suffix_counterexample :
    ∃ p, parseURL "https://vimeo.com/channels/myvideos".toList = some p ∧
      p.fields.isFolder = true ∧
      p.fields.folder = some "channels".toList ∧
      p.fields.folder ≠ some ALBUM ∧
      strEnds "/videos".toList p.url = false := by
  refine ⟨⟨"https://vimeo.com/channels/myvideos".toList,
    ⟨false, false, false, false, false, true, none, none, none,
      some "channels".toList, some "myvideos".toList⟩⟩,
    by decide, rfl, rfl, by decide, by decide⟩

/-- C7 counterexample, refuting idempotence in both ways the code allows.
First instance: classifying `channels/x/Videos` drops the trailing
case-variant `videos` token (classifying as the Folder `channels/x`) but the
case-sensitive `endswith` check still appends `'/videos'`; reclassifying the
resulting URL `.../channels/x/Videos/videos` sees four path tokens and yields
a Generic node with none of the Folder fields — this URL is a fixed point of
`normalizeURL`, so only the drop-and-append combination (`riskyRunB`) is at
fault.  Second instance: `https://vimeo.com///123` — the single-pass
`replace('//','/')` leaves `.../vimeo.com//123`, a Generic node (tokens
`['', '123']`) whose run has `riskyRunB = false`; reclassifying that URL
deduplicates the remaining `'//'` and yields a Video node with ID 123, so
only the failure of `normalizeURL` to fix the produced URL is at fault. -/
theorem classifier_not_idempotent :
    (∃ p q, parseURL "https://vimeo.com/channels/x/Videos".toList = some p ∧
      parseURL p.url = some q ∧
      normalizeURL p.url = p.url ∧
      riskyRunB "https://vimeo.com/channels/x/Videos".toList = true ∧
      p.fields.isFolder = true ∧ p.fields.name = some ['x'] ∧
      q.fields.isFolder = false ∧ q.fields.name = none ∧
      q.fields ≠ p.fields) ∧
    (∃ p q, parseURL "https://vimeo.com///123".toList = some p ∧
      parseURL p.url = some q ∧
      normalizeURL p.url ≠ p.url ∧
      riskyRunB "https://vimeo.com///123".toList = false ∧
      p.fields.isVideo = false ∧ p.fields.vID = none ∧
      q.fields.isVideo = true ∧ q.fields.vID = some 123 ∧
      q.fields ≠ p.fields) := by
  constructor
  · refine ⟨⟨"https://vimeo.com/channels/x/Videos/videos".toList,
      ⟨false, false, false, false, false, true, none, none, none,
        some "channels".toList, some ['x']⟩⟩,
      ⟨"https://vimeo.com/channels/x/Videos/videos".toList,
      ⟨false, false, false, false, false, false, none, none, none, none, none⟩⟩,
      by decide, by decide, by decide, by decide, rfl, rfl, rfl, rfl, by decide⟩
  · refine ⟨⟨"https://vimeo.com//123".toList,
      ⟨false, false, false, false, false, false, none, none, none, none, none⟩⟩,
      ⟨"https://vimeo.com/123".toList,
      ⟨false, true, false, false, false, false, some 123, none, none, none, none⟩⟩,
      by decide, by decide, by decide, by decide, rfl, rfl, rfl, rfl, by decide⟩

/-- C10: with `--retries 0` — accepted by option validation — `processVideo`
executes zero download attempts and its result cannot depend on anything an
attempt would do; for a video contained in some registered folder's member
set, the folder-linking loop then reads the never-assigned local `fileName`
and raises `UnboundLocalError` instead of creating links. -/
theorem zero_retries_unbound_local :
    retriesAccepted 0 = true ∧
    (∀ (outcome outcome' : Nat → AttemptOutcome)
        (folders : List (Str × Finset Nat)) (vID : Nat),
        processVideoModel 0 outcome folders vID =
          processVideoModel 0 outcome' folders vID) ∧
    (∀ (outcome : Nat → AttemptOutcome) (folders : List (Str × Finset Nat))
        (vID : Nat), (processVideoModel 0 outcome folders vID).1 = 0) ∧
    (∀ (outcome : Nat → AttemptOutcome) (folders : List (Str × Finset Nat))
        (vID : Nat), (∃ f ∈ folders, vID ∈ f.2) →
        (processVideoModel 0 outcome folders vID).2 =
          Except.error
            "UnboundLocalError: local variable fileName referenced before assignment") := by
  refine ⟨rfl, ?_, ?_, ?_⟩
  · intro o o' folders vID
    unfold processVideoModel
    cases hl : (folders.filter (fun g => vID ∈ g.2)).map (·.1) <;>
      simp [runAttempts, hl]
  · intro o folders vID
    unfold processVideoModel
    cases hl : (folders.filter (fun g => vID ∈ g.2)).map (·.1) <;>
      simp [runAttempts, hl]
  intro o folders vID ⟨f, hf, hv⟩
  have hmem : f.1 ∈ (folders.filter (fun g => vID ∈ g.2)).map (·.1) :=
    List.mem_map_of_mem _ (List.mem_filter.mpr ⟨hf, by simpa using hv⟩)
  unfold processVideoModel
  cases hl : (folders.filter (fun g => vID ∈ g.2)).map (·.1) with
  | nil => rw [hl] at hmem; cases hmem
  | cons d ds => simp [runAttempts, hl]

/-- Witness for `zero_retries_unbound_local`: one registered folder `"d"`
containing video 5 makes the zero-retry run fail with `UnboundLocalError`. -/
theorem zero_retries_unbound_local_witness :
    (processVideoModel 0 (fun _ => ⟨[], false⟩) [(['d'], {5})] 5).2 =
      Except.error
        "UnboundLocalError: local variable fileName referenced before assignment" :=
  zero_retries_unbound_local.2.2.2 (fun _ => ⟨[], false⟩) [(['d'], {5})] 5
    ⟨(['d'], {5}), by simp, by simp⟩

theorem strStarts_iff_append {pat s : Str} :
    strStarts pat s = true ↔ ∃ t, s = pat ++ t := by
  induction pat generalizing s with
  | nil => simp [strStarts]
  | cons c cs ih =>
    cases s with
    | nil => simp [strStarts]
    | cons b bs =>
      simp only [strStarts, Bool.and_eq_true, decide_eq_true_eq, ih,
        List.cons_append, List.cons.injEq]
      constructor
      · rintro ⟨rfl, t, rfl⟩; exact ⟨t, rfl, rfl⟩
      · rintro ⟨t, rfl, rfl⟩; exact ⟨rfl, t, rfl⟩

theorem strStarts_self_append (p t : Str) : strStarts p (p ++ t) = true :=
  strStarts_iff_append.mpr ⟨t, rfl⟩

theorem strStarts_length_le {pat s : Str} (h : strStarts pat s = true) :
    pat.length ≤ s.length := by
  obtain ⟨t, rfl⟩ := strStarts_iff_append.mp h
  simp

theorem strStarts_of_take {pat x : Str} {m : Nat}
    (h : strStarts pat (x.take m) = true) : strStarts pat x = true := by
  induction pat generalizing x m with
  | nil => simp [strStarts]
  | cons c cs ih =>
    cases m with
    | zero => simp [strStarts] at h
    | succ m' =>
      cases x with
      | nil => simpa using h
      | cons b bs =>
        simp only [List.take_succ_cons, strStarts, Bool.and_eq_true] at h ⊢
        exact ⟨h.1, ih h.2⟩

theorem strEnds_append_self (suf a : Str) : strEnds suf (a ++ suf) = true := by
  unfold strEnds
  rw [List.reverse_append]
  exact strStarts_self_append _ _

theorem findSub_some_starts {pat s : Str} {i : Nat}
    (h : findSub pat s = some i) : strStarts pat (s.drop i) = true := by
  induction s generalizing i with
  | nil =>
    unfold findSub at h
    split at h
    · cases h; simpa [*]
    · cases h
  | cons c rest ih =>
    unfold findSub at h
    split at h
    · cases h; simpa [*]
    · cases hrec : findSub pat rest with
      | none => rw [hrec] at h; cases h
      | some j =>
        rw [hrec] at h
        cases h
        simpa using ih hrec

theorem findSub_some_min {pat s : Str} {i : Nat}
    (h : findSub pat s = some i) :
    ∀ j, j < i → strStarts pat (s.drop j) = false := by
  induction s generalizing i with
  | nil =>
    unfold findSub at h
    split at h
    · cases h; omega
    · cases h
  | cons c rest ih =>
    unfold findSub at h
    split at h
    · cases h; omega
    · cases hrec : findSub pat rest with
      | none => rw [hrec] at h; cases h
      | some k =>
        rw [hrec] at h
        have hik : k + 1 = i := by simpa using h
        subst hik
        intro j hj
        cases j with
        | zero =>
          simpa using by
            simpa [Bool.not_eq_true] using
              ‹¬ strStarts pat (c :: rest) = true›
        | succ j' => exact ih hrec j' (by omega)

theorem findSub_eq_none_of {pat s : Str}
    (h : ∀ j, strStarts pat (s.drop j) = false) : findSub pat s = none := by
  induction s with
  | nil =>
    unfold findSub
    rw [if_neg]
    simpa using h 0
  | cons c rest ih =>
    unfold findSub
    rw [if_neg (by simpa using h 0)]
    rw [ih (fun j => by simpa using h (j + 1))]
    rfl

theorem findSub_eq_some_of {pat s : Str} {i : Nat}
    (hi : strStarts pat (s.drop i) = true)
    (hmin : ∀ j, j < i → strStarts pat (s.drop j) = false) :
    findSub pat s = some i := by
  induction s generalizing i with
  | nil =>
    cases i with
    | zero => unfold findSub; rw [if_pos (by simpa using hi)]
    | succ i' =>
      exfalso
      have h0 := hmin 0 (by omega)
      simp at hi h0
      rw [h0] at hi
      cases hi
  | cons c rest ih =>
    cases i with
    | zero =>
      unfold findSub
      rw [if_pos (by simpa using hi)]
    | succ i' =>
      unfold findSub
      rw [if_neg (by simpa using hmin 0 (by omega))]
      rw [ih (by simpa using hi) (fun j hj => by simpa using hmin (j + 1) (by omega))]
      rfl

theorem strStarts_append_of_starts {pat a : Str} (b : Str)
    (h : strStarts pat a = true) : strStarts pat (a ++ b) = true := by
  obtain ⟨t, rfl⟩ := strStarts_iff_append.mp h
  rw [List.append_assoc]
  exact strStarts_self_append _ _

theorem strStarts_append_left {pat a b : Str}
    (h : strStarts pat (a ++ b) = true) (hl : pat.length ≤ a.length) :
    strStarts pat a = true := by
  have : a = (a ++ b).take a.length := by simp
  rw [this]
  have := strStarts_iff_append.mp h
  obtain ⟨t, ht⟩ := this
  rw [ht, List.take_append_eq_append_take, List.take_of_length_le hl,
    strStarts_iff_append]
  exact ⟨_, rfl⟩

/-- C8 amended: for every classified Folder node, an `'album'`-kind folder's
URL is exactly the pre-suffix URL (nothing is ever appended), while for any
other folder kind the final URL ends with the string `'videos'` (the
`'/videos'` suffix is appended unless the case-preserved URL already ends
with `'videos'`, without a slash in the test). -/
theorem folder_videos_suffix (s : Str) (p : PyURL)
    (hp : parseURL s = some p) (hf : p.fields.isFolder = true) :
    (p.fields.folder = some ALBUM → stageU1 s = some p.url) ∧
    (p.fields.folder ≠ some ALBUM → strEnds VIDEOS_LINKS p.url = true) := by
  unfold parseURL parseCore at hp
  cases hidx : idxOf (normalizeURL s) with
  | none => rw [hidx] at hp; cases hp
  | some idx =>
    rw [hidx] at hp
    simp only [Option.some_inj] at hp
    subst hp
    constructor
    · intro halb
      have hnap : ¬ appendP
          (u1Of (normalizeURL s) (tokens0Of (normalizeURL s) idx))
          (classifyTokens (tokensOf (tokens1Of (tokens0Of (normalizeURL s) idx)))) := by
        rintro ⟨_, hne, _⟩
        exact hne halb
      simp [stageU1, hidx, u2Of, if_neg hnap]
    · intro hne
      by_cases hap : appendP
          (u1Of (normalizeURL s) (tokens0Of (normalizeURL s) idx))
          (classifyTokens (tokensOf (tokens1Of (tokens0Of (normalizeURL s) idx))))
      · simp only [u2Of, if_pos hap]
        rw [show
            u1Of (normalizeURL s) (tokens0Of (normalizeURL s) idx) ++
              '/' :: VIDEOS_LINKS =
            (u1Of (normalizeURL s) (tokens0Of (normalizeURL s) idx) ++ ['/']) ++
              VIDEOS_LINKS from by simp]
        exact strEnds_append_self _ _
      · simp only [u2Of, if_neg hap]
        by_contra hend
        exact hap ⟨hf, hne, by simpa [Bool.not_eq_true] using hend⟩

/-- Witness for `folder_videos_suffix`: an album folder keeps its URL
unchanged, and a channels folder's URL ends with `'videos'`. -/
theorem folder_videos_suffix_witness :
    (stageU1 "https://vimeo.com/album/4444".toList =
      some "https://vimeo.com/album/4444".toList) ∧
    (strEnds VIDEOS_LINKS
      "https://vimeo.com/channels/myshow/videos".toList = true) := by
  have h1 := folder_videos_suffix "https://vimeo.com/album/4444".toList
    ⟨"https://vimeo.com/album/4444".toList,
      ⟨false, false, false, false, false, true, none, none, none,
        some ALBUM, some "4444".toList⟩⟩ (by decide) rfl
  have h2 := folder_videos_suffix "https://vimeo.com/channels/myshow".toList
    ⟨"https://vimeo.com/channels/myshow/videos".toList,
      ⟨false, false, false, false, false, true, none, none, none,
        some "channels".toList, some "myshow".toList⟩⟩ (by decide) rfl
  exact ⟨h1.1 rfl, h2.2 (by decide)⟩

/-- C9 amended: the shortcut file content is exactly
`"[InternetShortcut]\nURL=" ++ t ++ "\n"` where `t` is the longest prefix of
the node's URL not containing `'/videos'`: the URL is truncated at the
*first* occurrence of `'/videos'` anywhere (not merely a trailing suffix
strip), and is kept whole when `'/videos'` never occurs. -/
theorem shortcut_file_content (url : Str) :
    ∃ t, shortcutContent url =
        "[InternetShortcut]\nURL=".toList ++ t ++ ['\n'] ∧
      (∃ r, t ++ r = url) ∧
      findSub "/videos".toList t = none ∧
      (t = url ∨ ∃ r, url = t ++ "/videos".toList ++ r) := by
  unfold shortcutContent takeBeforeSub
  cases hfs : findSub "/videos".toList url with
  | none => exact ⟨url, by simp, ⟨[], by simp⟩, hfs, Or.inl rfl⟩
  | some i =>
    refine ⟨url.take i, by simp, ⟨url.drop i, by simp⟩, ?_, Or.inr ?_⟩
    · refine findSub_eq_none_of (fun j => ?_)
      by_contra hj
      have hj' : strStarts "/videos".toList ((url.take i).drop j) = true := by
        simpa [Bool.not_eq_false] using hj
      have hlen := strStarts_length_le hj'
      have hji : j < i := by
        simp only [List.length_drop, List.length_take] at hlen
        simp at hlen
        omega
      have : strStarts "/videos".toList (url.drop j) = true := by
        have : (url.take i).drop j = (url.drop j).take (i - j) := by
          rw [List.drop_take]
        rw [this] at hj'
        exact strStarts_of_take hj'
      rw [findSub_some_min hfs j hji] at this
      cases this
    · have := findSub_some_starts hfs
      obtain ⟨r, hr⟩ := strStarts_iff_append.mp this
      exact ⟨r, by rw [List.append_assoc, ← hr]; simp⟩

theorem keys_addEntry (gs : List (Str × List DirEntry)) (k : Str) (e : DirEntry) :
    (addEntry gs k e).map Prod.fst =
      if k ∈ gs.map Prod.fst then gs.map Prod.fst
      else gs.map Prod.fst ++ [k] := by
  induction gs with
  | nil => simp [addEntry]
  | cons p rest ih =>
    obtain ⟨k', es⟩ := p
    by_cases hk : k' = k
    · subst hk
      simp [addEntry]
    · simp only [addEntry, if_neg hk, List.map_cons, ih, List.mem_cons]
      by_cases hmem : k ∈ rest.map Prod.fst
      · simp [hmem]
      · simp [hmem, Ne.symm hk]

theorem flat_addEntry (gs : List (Str × List DirEntry)) (k : Str) (e : DirEntry) :
    ((addEntry gs k e).map Prod.snd).flatten ~
      ((gs.map Prod.snd).flatten) ++ [e] := by
  induction gs with
  | nil => simp [addEntry]
  | cons p rest ih =>
    obtain ⟨k', es⟩ := p
    by_cases hk : k' = k
    · simp only [addEntry, if_pos hk, List.map_cons, List.flatten_cons]
      calc (es ++ [e]) ++ (rest.map Prod.snd).flatten
          = es ++ ([e] ++ (rest.map Prod.snd).flatten) := by simp
        _ ~ es ++ ((rest.map Prod.snd).flatten ++ [e]) :=
            List.Perm.append_left es List.perm_append_comm
        _ = (es ++ (rest.map Prod.snd).flatten) ++ [e] := by simp
    · simp only [addEntry, if_neg hk, List.map_cons, List.flatten_cons]
      calc es ++ ((addEntry rest k e).map Prod.snd).flatten
          ~ es ++ ((rest.map Prod.snd).flatten ++ [e]) :=
            List.Perm.append_left es ih
        _ = (es ++ (rest.map Prod.snd).flatten) ++ [e] := by simp

theorem addEntry_prop (gs : List (Str × List DirEntry)) (k : Str) (e : DirEntry)
    (h : ∀ p ∈ gs, p.2 ≠ [] ∧ ∀ x ∈ p.2,
        '.' ∈ x.name ∧ x.isRegularFile = true ∧ stemOf x.name = p.1)
    (he : '.' ∈ e.name ∧ e.isRegularFile = true ∧ stemOf e.name = k) :
    ∀ p ∈ addEntry gs k e, p.2 ≠ [] ∧ ∀ x ∈ p.2,
      '.' ∈ x.name ∧ x.isRegularFile = true ∧ stemOf x.name = p.1 := by
  induction gs with
  | nil =>
    intro p hp
    simp only [addEntry, List.mem_singleton] at hp
    subst hp
    refine ⟨by simp, ?_⟩
    intro x hx
    simp only [List.mem_singleton] at hx
    subst hx
    exact he
  | cons q rest ih =>
    obtain ⟨k', es⟩ := q
    intro p hp
    by_cases hk : k' = k
    · simp only [addEntry, if_pos hk] at hp
      rcases List.mem_cons.mp hp with rfl | hp'
      · refine ⟨by simp, ?_⟩
        intro x hx
        rcases List.mem_append.mp hx with hx' | hx'
        · exact (h (k', es) (List.mem_cons_self _ _)).2 x hx'
        · simp only [List.mem_singleton] at hx'
          subst hx'
          exact ⟨he.1, he.2.1, by rw [he.2.2, hk]⟩
      · exact h p (List.mem_cons_of_mem _ hp')
    · simp only [addEntry, if_neg hk] at hp
      rcases List.mem_cons.mp hp with rfl | hp'
      · exact h (k', es) (List.mem_cons_self _ _)
      · exact ih (fun q hq => h q (List.mem_cons_of_mem _ hq)) p hp'

theorem buildGroups_invariants (entries : List DirEntry) :
    (∀ p ∈ buildGroups entries, p.2 ≠ [] ∧ ∀ x ∈ p.2,
        '.' ∈ x.name ∧ x.isRegularFile = true ∧ stemOf x.name = p.1) ∧
    ((buildGroups entries).map Prod.fst).Nodup ∧
    ((buildGroups entries).map Prod.snd).flatten ~
      entries.filter (fun e => decide ('.' ∈ e.name ∧ e.isRegularFile = true)) := by
  suffices haux : ∀ (l : List DirEntry) (gs : List (Str × List DirEntry)),
      (∀ p ∈ gs, p.2 ≠ [] ∧ ∀ x ∈ p.2,
          '.' ∈ x.name ∧ x.isRegularFile = true ∧ stemOf x.name = p.1) →
      ((gs.map Prod.fst).Nodup) →
      (∀ p ∈ l.foldl (fun gs e =>
          if '.' ∈ e.name ∧ e.isRegularFile = true then
            addEntry gs (stemOf e.name) e
          else gs) gs, p.2 ≠ [] ∧ ∀ x ∈ p.2,
          '.' ∈ x.name ∧ x.isRegularFile = true ∧ stemOf x.name = p.1) ∧
      (((l.foldl (fun gs e =>
          if '.' ∈ e.name ∧ e.isRegularFile = true then
            addEntry gs (stemOf e.name) e
          else gs) gs).map Prod.fst).Nodup) ∧
      ((l.foldl (fun gs e =>
          if '.' ∈ e.name ∧ e.isRegularFile = true then
            addEntry gs (stemOf e.name) e
          else gs) gs).map Prod.snd).flatten ~
        (gs.map Prod.snd).flatten ++
          l.filter (fun e => decide ('.' ∈ e.name ∧ e.isRegularFile = true)) by
    have := haux entries [] (by simp) (by simp)
    simpa [buildGroups] using this
  intro l
  induction l with
  | nil =>
    intro gs h1 h2
    exact ⟨h1, h2, by simp⟩
  | cons e rest ih =>
    intro gs h1 h2
    simp only [List.foldl_cons]
    by_cases he : '.' ∈ e.name ∧ e.isRegularFile = true
    · have h1' := addEntry_prop gs (stemOf e.name) e h1 ⟨he.1, he.2, rfl⟩
      have h2' : ((addEntry gs (stemOf e.name) e).map Prod.fst).Nodup := by
        rw [keys_addEntry]
        split
        · exact h2
        · refine h2.append (List.nodup_singleton _) ?_
          intro a ha hb
          simp only [List.mem_singleton] at hb
          subst hb
          exact ‹¬ stemOf e.name ∈ gs.map Prod.fst› ha
      obtain ⟨g1, g2, g3⟩ := ih _ h1' h2'
      rw [if_pos he]
      refine ⟨g1, g2, ?_⟩
      calc ((rest.foldl _ (addEntry gs (stemOf e.name) e)).map Prod.snd).flatten
          ~ ((addEntry gs (stemOf e.name) e).map Prod.snd).flatten ++
              rest.filter (fun e => decide ('.' ∈ e.name ∧ e.isRegularFile = true)) := g3
        _ ~ ((gs.map Prod.snd).flatten ++ [e]) ++
              rest.filter (fun e => decide ('.' ∈ e.name ∧ e.isRegularFile = true)) :=
            (flat_addEntry gs (stemOf e.name) e).append_right _
        _ = (gs.map Prod.snd).flatten ++
              (e :: rest.filter (fun e => decide ('.' ∈ e.name ∧ e.isRegularFile = true))) := by
            simp
        _ = (gs.map Prod.snd).flatten ++
              (e :: rest).filter (fun e => decide ('.' ∈ e.name ∧ e.isRegularFile = true)) := by
            rw [List.filter_cons, if_pos (by simpa using he)]
    · rw [if_neg he]
      obtain ⟨g1, g2, g3⟩ := ih gs h1 h2
      refine ⟨g1, g2, ?_⟩
      calc ((rest.foldl _ gs).map Prod.snd).flatten
          ~ (gs.map Prod.snd).flatten ++
              rest.filter (fun e => decide ('.' ∈ e.name ∧ e.isRegularFile = true)) := g3
        _ = (gs.map Prod.snd).flatten ++
              (e :: rest).filter (fun e => decide ('.' ∈ e.name ∧ e.isRegularFile = true)) := by
            rw [List.filter_cons, if_neg (by simpa using he)]

unseal List.mergeSort List.merge in
/-- C2 counterexample: for files `a.b.x` (1 byte) and `a.c.x` (2 bytes) the
code groups by the substring before the *last* dot (`a.b` and `a.c` — two
singleton groups, nothing deleted), while first-dot grouping as claimed would
put both under stem `a` and delete `a.b.x`. -/
theorem duplicate_stem_counterexample :
    removedNames [⟨"a.b.x".toList, true, 1⟩, ⟨"a.c.x".toList, true, 2⟩] = [] ∧
    removedNamesSpec [⟨"a.b.x".toList, true, 1⟩, ⟨"a.c.x".toList, true, 2⟩] =
      ["a.b.x".toList] ∧
    removedNames [⟨"a.b.x".toList, true, 1⟩, ⟨"a.c.x".toList, true, 2⟩] ≠
      removedNamesSpec [⟨"a.b.x".toList, true, 1⟩, ⟨"a.c.x".toList, true, 2⟩] ∧
    stemOf "a.b.x".toList = "a.b".toList ∧
    stemSpecOf "a.b.x".toList = ['a'] := by
  refine ⟨by decide, by decide, by decide, by decide, by decide⟩

/-- C2 amended: `removeDuplicates` groups regular files by the substring
before the *last* dot of the name (`rfind`); every grouped file is a regular
file containing a dot with that stem; for every group with at least two
files, the size-ascending sort ends in a kept file of maximal byte size, all
other group members' names are removed, and (given distinct file names, as a
directory listing guarantees) the kept name is not removed; a file without a
dot is never removed. -/
theorem duplicate_reconciler_last_dot (entries : List DirEntry) (k : Str)
    (es : List DirEntry) (hg : (k, es) ∈ buildGroups entries)
    (hnames : (entries.map (·.name)).Nodup) :
    (∀ e ∈ es, '.' ∈ e.name ∧ e.isRegularFile = true ∧ stemOf e.name = k) ∧
    (∀ e ∈ entries, '.' ∉ e.name → e.name ∉ removedNames entries) ∧
    (2 ≤ es.length →
      ∃ rest kept, sortBySize es = rest ++ [kept] ∧ kept ∈ es ∧
        (∀ e ∈ es, e.size ≤ kept.size) ∧
        (∀ e ∈ rest, e.name ∈ removedNames entries) ∧
        kept.name ∉ removedNames entries) := by
  obtain ⟨hprops, hkeys, hperm⟩ := buildGroups_invariants entries
  have hflat_nodup :
      ((((buildGroups entries).map Prod.snd).flatten).map (·.name)).Nodup := by
    have hsub : entries.filter
        (fun e => decide ('.' ∈ e.name ∧ e.isRegularFile = true)) <+ entries :=
      List.filter_sublist _
    have hfil : ((entries.filter
        (fun e => decide ('.' ∈ e.name ∧ e.isRegularFile = true))).map
          (·.name)).Nodup :=
      hnames.sublist (hsub.map _)
    exact ((hperm.map (·.name)).nodup_iff).mpr hfil
  -- membership in a group's removal list forces membership in that group,
  -- with the group identified by the common stem
  have hremoved : ∀ n, n ∈ removedNames entries →
      ∃ g ∈ buildGroups entries, 2 ≤ g.2.length ∧
        ∃ x ∈ (sortBySize g.2).dropLast, x ∈ g.2 ∧ x.name = n := by
    intro n hn
    obtain ⟨lnames, hlmem, hnmem⟩ := List.mem_flatten.mp hn
    obtain ⟨g, hgmem, hgeq⟩ := List.mem_map.mp hlmem
    by_cases hglen : g.2.length ≤ 1
    · rw [← hgeq] at hnmem
      simp [hglen] at hnmem
    · rw [← hgeq, if_neg hglen] at hnmem
      obtain ⟨x, hxmem, hxname⟩ := List.mem_map.mp hnmem
      refine ⟨g, hgmem, by omega, x, hxmem, ?_, hxname⟩
      exact (List.mergeSort_perm g.2 _).subset
        ((List.dropLast_sublist _).subset hxmem)
  refine ⟨fun e he => (hprops _ hg).2 e he, ?_, ?_⟩
  · intro e he hdot hmem
    obtain ⟨g, hgmem, _, x, _, hxg, hxname⟩ := hremoved e.name hmem
    have hx_entries : x ∈ entries := by
      have : x ∈ ((buildGroups entries).map Prod.snd).flatten :=
        List.mem_flatten_of_mem (List.mem_map_of_mem Prod.snd hgmem) hxg
      have := hperm.subset this
      exact (List.mem_filter.mp this).1
    have hxe : x = e :=
      List.inj_on_of_nodup_map hnames hx_entries he hxname
    subst hxe
    exact hdot ((hprops g hgmem).2 x hxg).1
  · intro hlen
    have hes_sub : es <+ ((buildGroups entries).map Prod.snd).flatten :=
      List.sublist_flatten_of_mem (List.mem_map_of_mem Prod.snd hg)
    have hes_nodup : (es.map (·.name)).Nodup :=
      hflat_nodup.sublist (hes_sub.map _)
    have hperm_es : List.Perm (sortBySize es) es := List.mergeSort_perm es _
    have hSne : sortBySize es ≠ [] := by
      intro h0
      have := hperm_es.length_eq
      rw [h0] at this
      simp at this
      omega
    refine ⟨(sortBySize es).dropLast, (sortBySize es).getLast hSne,
      (List.dropLast_concat_getLast hSne).symm,
      hperm_es.subset (List.getLast_mem hSne), ?_, ?_, ?_⟩
    · -- maximality of the kept element
      have hsorted := @List.sorted_mergeSort DirEntry
        (fun a b : DirEntry => decide (a.size ≤ b.size))
        (fun a b c h1 h2 => by
          simp only [decide_eq_true_eq] at h1 h2 ⊢
          omega)
        (fun a b => by
          simp only [Bool.or_eq_true, decide_eq_true_eq]
          omega)
        es
      have hsorted' : List.Pairwise
          (fun a b : DirEntry => decide (a.size ≤ b.size) = true)
          (sortBySize es) := hsorted
      intro e he
      have heS : e ∈ sortBySize es := hperm_es.symm.subset he
      rw [← List.dropLast_concat_getLast hSne] at heS hsorted'
      rcases List.mem_append.mp heS with he' | he'
      · have := (List.pairwise_append.mp hsorted').2.2 e he'
          ((sortBySize es).getLast hSne) (List.mem_singleton_self _)
        simpa using this
      · simp only [List.mem_singleton] at he'
        rw [he']
    · -- every non-kept group member's name is removed
      intro e he
      refine List.mem_flatten.mpr
        ⟨(if es.length ≤ 1 then []
          else (sortBySize es).dropLast.map (·.name)), ?_, ?_⟩
      · exact List.mem_map.mpr ⟨(k, es), hg, rfl⟩
      · rw [if_neg (by omega)]
        exact List.mem_map_of_mem _ he
    · -- the kept name survives
      intro hmem
      obtain ⟨g, hgmem, hglen, x, hxdrop, hxg, hxname⟩ :=
        hremoved ((sortBySize es).getLast hSne).name hmem
      have hstem_x : stemOf x.name = g.1 := ((hprops g hgmem).2 x hxg).2.2
      have hkept_es : (sortBySize es).getLast hSne ∈ es :=
        hperm_es.subset (List.getLast_mem hSne)
      have hstem_kept : stemOf ((sortBySize es).getLast hSne).name = k :=
        ((hprops _ hg).2 _ hkept_es).2.2
      have hkg : g.1 = k := by rw [← hstem_x, hxname, hstem_kept]
      have hgg : g = (k, es) :=
        List.inj_on_of_nodup_map hkeys hgmem hg hkg
      subst hgg
      -- now x is among the dropped part of the sort of es, sharing the
      -- kept element's name: contradicts distinct names inside the group
      have hSnames : ((sortBySize es).map (·.name)).Nodup :=
        ((hperm_es.map (·.name)).nodup_iff).mpr hes_nodup
    
      have hdec : (sortBySize es).map (·.name) =
          ((sortBySize es).dropLast.map (·.name)) ++
            [((sortBySize es).getLast hSne).name] := by
        conv_lhs => rw [← List.dropLast_concat_getLast hSne]
        simp
      rw [hdec] at hSnames
      exact (List.disjoint_of_nodup_append hSnames)
        (List.mem_map_of_mem _ hxdrop)
        (by rw [← hxname]; exact List.mem_singleton_self _)

/-- Witness for `duplicate_reconciler_last_dot`: files `t.mp4` (5 bytes) and
`t.mov` (9 bytes) share the last-dot stem `t`; exactly one file of maximal
size is kept and the other's name is removed. -/
theorem duplicate_reconciler_last_dot_witness :
    ∃ rest kept,
      sortBySize [⟨"t.mp4".toList, true, 5⟩, ⟨"t.mov".toList, true, 9⟩] =
        rest ++ [kept] ∧
      kept ∈ [(⟨"t.mp4".toList, true, 5⟩ : DirEntry), ⟨"t.mov".toList, true, 9⟩] ∧
      (∀ e ∈ [(⟨"t.mp4".toList, true, 5⟩ : DirEntry), ⟨"t.mov".toList, true, 9⟩],
        e.size ≤ kept.size) ∧
      (∀ e ∈ rest, e.name ∈
        removedNames [⟨"t.mp4".toList, true, 5⟩, ⟨"t.mov".toList, true, 9⟩]) ∧
      kept.name ∉
        removedNames [⟨"t.mp4".toList, true, 5⟩, ⟨"t.mov".toList, true, 9⟩] :=
  (duplicate_reconciler_last_dot
    [⟨"t.mp4".toList, true, 5⟩, ⟨"t.mov".toList, true, 9⟩] "t".toList
    [⟨"t.mp4".toList, true, 5⟩, ⟨"t.mov".toList, true, 9⟩]
    (by decide) (by decide)).2.2 (by decide)

theorem splitChar_ne_nil (sep : Char) (l : Str) : splitChar sep l ≠ [] := by
  cases l with
  | nil => simp [splitChar]
  | cons c rest =>
    unfold splitChar
    by_cases hc : c = sep
    · simp [hc]
    · rw [if_neg hc]
      cases splitChar sep rest <;> simp

theorem splitChar_of_not_mem {sep : Char} {l : Str} (h : sep ∉ l) :
    splitChar sep l = [l] := by
  induction l with
  | nil => rfl
  | cons c rest ih =>
    have hc : ¬ c = sep := fun he => h (he ▸ List.mem_cons_self c rest)
    have hrest : sep ∉ rest := fun hm => h (List.mem_cons_of_mem c hm)
    unfold splitChar
    rw [if_neg hc, ih hrest]

theorem splitChar_append_sep (sep : Char) (a b : Str) :
    splitChar sep (a ++ sep :: b) = splitChar sep a ++ splitChar sep b := by
  induction a with
  | nil =>
    simp only [List.nil_append]
    have hl : splitChar sep (sep :: b) = [] :: splitChar sep b := by
      rw [splitChar, if_pos rfl]
    rw [hl]
    rfl
  | cons c a ih =>
    simp only [List.cons_append]
    by_cases hc : c = sep
    · have hl : splitChar sep (c :: (a ++ sep :: b)) =
          [] :: splitChar sep (a ++ sep :: b) := by
        rw [splitChar, if_pos hc]
      have hr : splitChar sep (c :: a) = [] :: splitChar sep a := by
        rw [splitChar, if_pos hc]
      rw [hl, hr, ih]
      rfl
    · have hl : splitChar sep (c :: (a ++ sep :: b)) =
          match splitChar sep (a ++ sep :: b) with
          | [] => [[c]]
          | h :: t => (c :: h) :: t := by
        rw [splitChar, if_neg hc]
      have hr : splitChar sep (c :: a) =
          match splitChar sep a with
          | [] => [[c]]
          | h :: t => (c :: h) :: t := by
        rw [splitChar, if_neg hc]
      rw [hl, hr, ih]
      cases hsa : splitChar sep a with
      | nil => exact absurd hsa (splitChar_ne_nil sep a)
      | cons h t => simp

theorem toLower_digit {c : Char} (h : c.isDigit = true) : c.toLower = c := by
  unfold Char.toLower
  rw [if_neg]
  simp only [Char.isDigit, Bool.and_eq_true, decide_eq_true_eq] at h
  obtain ⟨h1, h2⟩ := h
  have h2' : c.val.toNat ≤ 57 := by
    simpa [UInt32.le_def, BitVec.le_def] using h2
  intro hcon
  obtain ⟨hA, _⟩ := hcon
  simp only [Char.toNat] at hA
  omega

theorem lowerStr_digits {d : Str} (h : isDigitStr d) : lowerStr d = d := by
  unfold lowerStr
  have hc : ∀ c ∈ d, c.toLower = id c := fun c hc => toLower_digit (h.2 c hc)
  rw [List.map_congr_left hc, List.map_id]

theorem slash_not_mem_digits {d : Str} (h : isDigitStr d) : '/' ∉ d := by
  intro hmem
  have := h.2 '/' hmem
  simp [Char.isDigit] at this

theorem findSub_le_length {pat s : Str} {i : Nat}
    (h : findSub pat s = some i) : i ≤ s.length := by
  induction s generalizing i with
  | nil =>
    unfold findSub at h
    split at h
    · cases h; simp
    · cases h
  | cons c rest ih =>
    unfold findSub at h
    split at h
    · cases h; simp
    · cases hrec : findSub pat rest with
      | none => rw [hrec] at h; cases h
      | some k =>
        rw [hrec] at h
        have hik : k + 1 = i := by simpa using h
        subst hik
        have := ih hrec
        simp
        omega

theorem findSub_append_right {pat a : Str} {i : Nat} (b : Str)
    (h : findSub pat a = some i) : findSub pat (a ++ b) = some i := by
  have hst := findSub_some_starts h
  have hlen : pat.length ≤ a.length - i := by
    have := strStarts_length_le hst
    simpa using this
  have hile : i ≤ a.length := findSub_le_length h
  apply findSub_eq_some_of
  · rw [List.drop_append_of_le_length hile]
    exact strStarts_append_of_starts b hst
  · intro j hj
    have hja : j ≤ a.length := by omega
    rw [List.drop_append_of_le_length hja]
    by_contra hcon
    have hcon' : strStarts pat (a.drop j ++ b) = true := by
      simpa [Bool.not_eq_false] using hcon
    have : strStarts pat (a.drop j) = true := by
      refine strStarts_append_left hcon' ?_
      simp only [List.length_drop]
      omega
    rw [findSub_some_min h j hj] at this
    cases this

theorem findSub_vimeo_head (tail : Str) :
    findSub VIMEO ("https://vimeo.com/".toList ++ tail) = some 8 := by
  have hfirst : ∀ (c : Char) (rest : Str), c ≠ 'v' →
      strStarts VIMEO (c :: rest) = false := by
    intro c rest hc
    show strStarts ('v' :: "imeo.com".toList) (c :: rest) = false
    simp [strStarts, Ne.symm hc]
  apply findSub_eq_some_of
  · rw [show ("https://vimeo.com/".toList ++ tail).drop 8 =
        VIMEO ++ ('/' :: tail) from by
      rw [List.drop_append_of_le_length (by simp)]
      rfl]
    exact strStarts_self_append _ _
  · intro j hj
    interval_cases j <;>
      exact hfirst _ _ (by decide)

theorem parseCore_eq (u : Str) (idx : Nat) (h : idxOf u = some idx) :
    parseCore u = some
      ⟨u2Of (u1Of u (tokens0Of u idx))
          (classifyTokens (tokensOf (tokens1Of (tokens0Of u idx)))),
        classifyTokens (tokensOf (tokens1Of (tokens0Of u idx)))⟩ := by
  unfold parseCore
  rw [h]

/-- C7 amended: reclassifying the classifier's own normalized URL yields the
identical kind flags and kind-specific fields for every valid link, provided
the produced URL is fixed by re-normalization (`normalizeURL p.url = p.url`)
and the run did not combine the trailing-`'videos'` token drop with the
`'/videos'` append (`riskyRunB s = false`); the counterexample shows the
excluded combination genuinely breaks idempotence. -/
theorem classifier_idempotent_amended (s : Str) (p : PyURL)
    (hp : parseURL s = some p)
    (hn : normalizeURL p.url = p.url)
    (hrisk : riskyRunB s = false) :
    ∃ q, parseURL p.url = some q ∧ q.fields = p.fields := by
  unfold parseURL at hp
  unfold riskyRunB at hrisk
  cases hidx : idxOf (normalizeURL s) with
  | none =>
    unfold parseCore at hp
    rw [hidx] at hp
    cases hp
  | some idx =>
    rw [hidx] at hrisk
    dsimp only at hrisk
    rw [parseCore_eq _ _ hidx] at hp
    injection hp with hp
    subst hp
    dsimp only at hn ⊢
    generalize ht0 : tokens0Of (normalizeURL s) idx = t0 at hn hrisk ⊢
    generalize hu : normalizeURL s = u at hidx hn ht0 hrisk ⊢
    set f := classifyTokens (tokensOf (tokens1Of t0)) with hf
    by_cases hcol : collapseP t0
    · -- share-link collapse: the URL became a plain video URL
      have hdig : isDigitStr (t0.getLastD []) := hcol.2
      have hu1 : u1Of u t0 = vimeoURL (t0.getLastD []) := by
        rw [u1Of, if_pos hcol]
      have ht1 : tokens1Of t0 = [t0.getLastD []] := by
        rw [tokens1Of, if_pos hcol]
      have hncol1 : ¬ collapseP [t0.getLastD []] := by
        rintro ⟨h34, _⟩
        simp at h34
      have hndrop : ¬ dropP [t0.getLastD []] := by
        rintro ⟨h3, _⟩
        simp at h3
      have hT : tokensOf (tokens1Of t0) = [t0.getLastD []] := by
        rw [ht1, tokensOf, if_neg hndrop]
      have hnap : ¬ appendP (u1Of u t0) f := by
        rintro ⟨hfol, _, _⟩
        rw [hf, hT] at hfol
        simp [classifyTokens] at hfol
      have hurl : u2Of (u1Of u t0) f = vimeoURL (t0.getLastD []) := by
        rw [u2Of, if_neg hnap, hu1]
      rw [hurl] at hn ⊢
      have hlow : lowerStr (vimeoURL (t0.getLastD [])) =
          "https://vimeo.com/".toList ++ t0.getLastD [] := by
        have h1 : List.map Char.toLower "https://vimeo.com/".toList =
            "https://vimeo.com/".toList := by decide
        have h2 : List.map Char.toLower (t0.getLastD []) = t0.getLastD [] :=
          lowerStr_digits hdig
        rw [vimeoURL, lowerStr, List.map_append, h1, h2]
      have hidx2 : idxOf (vimeoURL (t0.getLastD [])) = some 8 := by
        rw [idxOf, hlow]
        exact findSub_vimeo_head _
      have ht0_2 : tokens0Of (vimeoURL (t0.getLastD [])) 8 = [t0.getLastD []] := by
        rw [tokens0Of, hlow]
        rw [show (8 + VIMEO.length + 1) =
          ("https://vimeo.com/".toList : Str).length from by decide]
        rw [List.drop_left]
        exact splitChar_of_not_mem (slash_not_mem_digits hdig)
      have ht1_2 : tokens1Of [t0.getLastD []] = [t0.getLastD []] := by
        rw [tokens1Of, if_neg hncol1]
      have hT2 : tokensOf (tokens1Of [t0.getLastD []]) = [t0.getLastD []] := by
        rw [ht1_2, tokensOf, if_neg hndrop]
      refine ⟨⟨u2Of (u1Of (vimeoURL (t0.getLastD [])) [t0.getLastD []])
          (classifyTokens [t0.getLastD []]), classifyTokens [t0.getLastD []]⟩,
        ?_, ?_⟩
      · unfold parseURL
        rw [hn, parseCore_eq _ _ hidx2, ht0_2, hT2]
      · show classifyTokens [t0.getLastD []] = f
        rw [hf, hT]
    · -- no collapse
      have hu1 : u1Of u t0 = u := by rw [u1Of, if_neg hcol]
      have ht1 : tokens1Of t0 = t0 := by rw [tokens1Of, if_neg hcol]
      by_cases hap : appendP (u1Of u t0) f
      · -- '/videos' appended; the drop cannot also have happened
        have hdrop : ¬ dropP t0 := by
          intro hd
          rw [ht1] at hrisk
          simp [hd, hap] at hrisk
        have hT : tokensOf (tokens1Of t0) = t0 := by
          rw [ht1, tokensOf, if_neg hdrop]
        have hfol : f.isFolder = true := hap.1
        have hlen2 : t0.length = 2 := by
          rw [hf, hT] at hfol
          by_contra hne
          simp [classifyTokens, hne] at hfol
        have hurl : u2Of (u1Of u t0) f = u ++ '/' :: VIDEOS_LINKS := by
          rw [u2Of, if_pos hap, hu1]
        rw [hurl] at hn ⊢
        rw [tokens0Of] at ht0
        have hpath : (lowerStr u).drop (idx + VIMEO.length + 1) ≠ [] := by
          intro h0
          rw [h0] at ht0
          rw [show splitChar '/' ([] : Str) = [[]] from rfl] at ht0
          rw [← ht0] at hlen2
          simp at hlen2
        have hle : idx + VIMEO.length + 1 ≤ (lowerStr u).length := by
          by_contra hgt
          apply hpath
          rw [List.drop_eq_nil_iff]
          omega
        have hlow2 : lowerStr (u ++ '/' :: VIDEOS_LINKS) =
            lowerStr u ++ '/' :: VIDEOS_LINKS := by
          have h1 : List.map Char.toLower ('/' :: VIDEOS_LINKS) =
              '/' :: VIDEOS_LINKS := by decide
          rw [lowerStr, List.map_append, h1]
          rfl
        have hidx2 : idxOf (u ++ '/' :: VIDEOS_LINKS) = some idx := by
          rw [idxOf, hlow2]
          exact findSub_append_right _ hidx
        have ht0_2 : tokens0Of (u ++ '/' :: VIDEOS_LINKS) idx =
            t0 ++ [VIDEOS_LINKS] := by
          rw [tokens0Of, hlow2, List.drop_append_of_le_length hle]
          rw [splitChar_append_sep,
            splitChar_of_not_mem (by decide : '/' ∉ VIDEOS_LINKS), ht0]
        have hcol2 : ¬ collapseP (t0 ++ [VIDEOS_LINKS]) := by
          rintro ⟨_, hdig⟩
          rw [List.getLastD_concat] at hdig
          exact absurd hdig (by decide)
        have ht1_2 : tokens1Of (t0 ++ [VIDEOS_LINKS]) = t0 ++ [VIDEOS_LINKS] := by
          rw [tokens1Of, if_neg hcol2]
        have hdrop2 : dropP (t0 ++ [VIDEOS_LINKS]) := by
          constructor
          · rw [List.length_append, hlen2]
            rfl
          · rw [List.getLastD_concat]
        have hT2 : tokensOf (tokens1Of (t0 ++ [VIDEOS_LINKS])) = t0 := by
          rw [ht1_2, tokensOf, if_pos hdrop2, List.dropLast_concat]
        refine ⟨⟨u2Of (u1Of (u ++ '/' :: VIDEOS_LINKS) (t0 ++ [VIDEOS_LINKS]))
            (classifyTokens t0), classifyTokens t0⟩, ?_, ?_⟩
        · unfold parseURL
          rw [hn, parseCore_eq _ _ hidx2, ht0_2, hT2]
        · show classifyTokens t0 = f
          rw [hf, hT]
      · -- nothing changed the URL: reclassification re-runs identically
        have hurl : u2Of (u1Of u t0) f = u := by
          rw [u2Of, if_neg hap, hu1]
        rw [hurl] at hn ⊢
        refine ⟨⟨u2Of (u1Of u t0) f, f⟩, ?_, rfl⟩
        unfold parseURL
        rw [hn, parseCore_eq _ _ hidx, ht0, ← hf]

/-- Witness for `classifier_idempotent_amended`: the plain account link
`someuser` re-normalizes to itself and involves neither the drop nor the
append, so reclassifying its URL reproduces the Account fields. -/
theorem classifier_idempotent_amended_witness :
    ∃ q, parseURL "https://vimeo.com/someuser".toList = some q ∧
      q.fields = ⟨false, false, true, false, false, false, none,
        some "someuser".toList, none, none, some "someuser".toList⟩ :=
  classifier_idempotent_amended "https://vimeo.com/someuser".toList
    ⟨"https://vimeo.com/someuser".toList,
      ⟨false, false, true, false, false, false, none,
        some "someuser".toList, none, none, some "someuser".toList⟩⟩
    (by decide) (by decide) (by decide)
